import Mathlib

/-!
Verification of the spherical-tensor component of the `e3nn_tutorial`
notebooks (`data_types.ipynb`, `simple_tasks_and_symmetry.ipynb`).

The notebooks delegate the heavy mathematics (spherical harmonics,
Wigner-D matrices, Clebsch-Gordan coefficients) to the external `e3nn`
library; where a definition below models such external functionality
its doc comment says so explicitly.  The coefficient-index conventions
(`tensor[L**2 + m]`, the `[1, 2, 0]` Cartesian permutation, `sum_Ls`)
are taken directly from the notebook cells.
-/

namespace E3nnTutorial

/-- 3-vectors over the rationals; the numeric stand-in for the
notebooks' `torch` double-precision 3-vectors. -/
abbrev V3 := Fin 3 → ℚ

/-- Flat coefficient index of degree `L`, order-offset `m` (with
`0 ≤ m ≤ 2L`), from `tensor[L**2 + m] = 1.0` in `data_types.ipynb`. -/
def shIndex (L m : ℕ) : ℕ := L ^ 2 + m

/-- First flat index of the degree-`L` block, from the slice
`input[L**2:(L+1)**2]` in `simple_tasks_and_symmetry.ipynb`. -/
def blockStart (L : ℕ) : ℕ := L ^ 2

/-- Number of coefficients of degree `L`, the `2 * L + 1` of
`sum_Ls = sum(2 * L + 1 for mult, L in Rs)` in `data_types.ipynb`. -/
def blockLen (L : ℕ) : ℕ := 2 * L + 1

/-- The `(L, m)` labels of every coefficient slot up to `Lmax`, in flat
index order: degree blocks in increasing `L`, each of length `2L+1`. -/
def layout (Lmax : ℕ) : List (ℕ × ℕ) :=
  (List.range (Lmax + 1)).flatMap fun L => (List.range (blockLen L)).map fun m => (L, m)

theorem layout_succ (n : ℕ) :
    layout (n + 1) = layout n ++ (List.range (blockLen (n + 1))).map fun m => (n + 1, m) := by
  simp [layout, List.range_succ]

theorem length_layout (Lmax : ℕ) : (layout Lmax).length = (Lmax + 1) ^ 2 := by
  induction Lmax with
  | zero => rfl
  | succ n ih =>
      rw [layout_succ, List.length_append, ih, List.length_map, List.length_range]
      simp [blockLen]
      ring

theorem get_layout (Lmax L m : ℕ) (hL : L ≤ Lmax) (hm : m < blockLen L) :
    (layout Lmax)[shIndex L m]? = some (L, m) := by
  induction Lmax with
  | zero =>
      have hL0 : L = 0 := Nat.le_zero.mp hL
      subst hL0
      simp only [blockLen] at hm
      have hm0 : m = 0 := by omega
      subst hm0
      decide
  | succ n ih =>
      rw [layout_succ]
      rcases Nat.lt_or_ge L (n + 1) with hlt | hge
      · have hidx : shIndex L m < (layout n).length := by
          rw [length_layout]
          have h1 : shIndex L m < (L + 1) ^ 2 := by
            simp only [shIndex, blockLen] at *
            nlinarith
          have h2 : (L + 1) ^ 2 ≤ (n + 1) ^ 2 := Nat.pow_le_pow_left hlt 2
          omega
        rw [List.getElem?_append_left hidx]
        exact ih (Nat.lt_succ_iff.mp hlt)
      · have hLe : L = n + 1 := le_antisymm hL hge
        subst hLe
        have hlen : (layout n).length ≤ shIndex (n + 1) m := by
          rw [length_layout]
          simp [shIndex]
        rw [List.getElem?_append_right hlen, length_layout]
        have hsub : shIndex (n + 1) m - (n + 1) ^ 2 = m := by simp [shIndex]
        rw [hsub, List.getElem?_map, List.getElem?_range hm]
        rfl

theorem mem_layout (Lmax : ℕ) (Lm : ℕ × ℕ) (h : Lm ∈ layout Lmax) :
    Lm.1 ≤ Lmax ∧ Lm.2 < blockLen Lm.1 := by
  simp only [layout, List.mem_flatMap, List.mem_map, List.mem_range] at h
  obtain ⟨L, hL, m, hm, rfl⟩ := h
  exact ⟨Nat.lt_succ_iff.mp hL, hm⟩

/-! ## Representation lists -/

/-- One entry `(mult, L, p)` of a representation list `Rs`, as in the
notebooks: multiplicity, degree, parity. -/
structure RepEntry where
  mult : ℕ
  L : ℕ
  p : ℤ
deriving DecidableEq

/-- The spec's invariant on a representation list: multiplicity ≥ 1 and
parity in {-1, 0, 1}; degrees are natural numbers by construction. -/
def validRep (Rs : List RepEntry) : Prop :=
  ∀ e ∈ Rs, 1 ≤ e.mult ∧ (e.p = -1 ∨ e.p = 0 ∨ e.p = 1)

instance (Rs : List RepEntry) : Decidable (validRep Rs) := by
  unfold validRep
  infer_instance

/-- Modelled from the spec: `rs.dim` lives in the external `e3nn.rs`
module; per the spec, a representation list lays out, for each entry in
order, `mult` copies of the `2L+1` order slots of degree `L`.  This is
that flattened slot-label list. -/
def rsLayout (Rs : List RepEntry) : List (ℕ × ℕ) :=
  Rs.flatMap fun e =>
    (List.range e.mult).flatMap fun _ => (List.range (blockLen e.L)).map fun m => (e.L, m)

/-- Modelled from the spec: the total coefficient-vector dimension of a
representation list, as the number of slots of its layout. -/
def rsDim (Rs : List RepEntry) : ℕ := (rsLayout Rs).length

theorem length_bind_const {α : Type} (k : ℕ) (l : List α) :
    ((List.range k).flatMap fun _ => l).length = k * l.length := by
  induction k with
  | zero => simp
  | succ n ih =>
      rw [List.range_succ, List.flatMap_append, List.length_append, ih]
      simp
      ring

theorem rsDim_eq_sum (Rs : List RepEntry) :
    rsDim Rs = (Rs.map fun e => e.mult * (2 * e.L + 1)).sum := by
  induction Rs with
  | nil => rfl
  | cons e es ih =>
      simp only [rsDim, rsLayout, List.flatMap_cons, List.length_append, List.map_cons,
        List.sum_cons] at *
      rw [ih, length_bind_const]
      simp [blockLen]

/-- Claim C2: for every valid representation list (multiplicity ≥ 1,
parity in {-1,0,1}), its coefficient-vector dimension equals the sum
over entries of `mult * (2L+1)`. -/
theorem claim_dim_formula (Rs : List RepEntry) (h : validRep Rs) :
    rsDim Rs = (Rs.map fun e => e.mult * (2 * e.L + 1)).sum :=
  rsDim_eq_sum Rs

/-- Witness for claim C2 at the concrete list `[(1,0,0), (2,1,-1)]`. -/
theorem claim_dim_formula_witness :
    rsDim [⟨1, 0, 0⟩, ⟨2, 1, -1⟩] =
      ([⟨1, 0, 0⟩, (⟨2, 1, -1⟩ : RepEntry)].map fun e => e.mult * (2 * e.L + 1)).sum :=
  claim_dim_formula [⟨1, 0, 0⟩, ⟨2, 1, -1⟩] (by decide)

/-! ## Cartesian-to-spherical permutation and basis ordering -/

/-- The index array `[1, 2, 0]` used in `data_types.ipynb` to permute
Cartesian axes `(x, y, z)` into the spherical-harmonic order. -/
def permIdx : Fin 3 → Fin 3 := ![1, 2, 0]

/-- Fancy-indexing a vector with `torch.tensor([1, 2, 0])`, as in the
notebook's `perm_M`-style cells: entry `i` reads axis `permIdx i`. -/
def permVec (v : V3) : V3 := fun i => v (permIdx i)

/-- Fancy-indexing both axes of a 3x3 matrix with
`[torch.tensor([1, 2, 0]).unsqueeze(1), torch.tensor([1, 2, 0]).unsqueeze(0)]`,
the notebook's `perm_M`. -/
def permMat (M : Matrix (Fin 3) (Fin 3) ℚ) : Matrix (Fin 3) (Fin 3) ℚ :=
  fun i j => M (permIdx i) (permIdx j)

/-- Modelled from the spec: the (unnormalized) real-spherical-harmonic
basis monomials up to degree 2 in flat-index order, following the
notebook's printed header `1  y  z  x  xy  yz  *  zx  %` with
`* = 2z^2 - x^2 - y^2` and `% = x^2 - y^2`; the normalized evaluator
itself lives in the external library. -/
def shBasisPoly : ℕ → V3 → ℚ
  | 0, _ => 1
  | 1, v => v 1
  | 2, v => v 2
  | 3, v => v 0
  | 4, v => v 0 * v 1
  | 5, v => v 1 * v 2
  | 6, v => 2 * v 2 ^ 2 - v 0 ^ 2 - v 1 ^ 2
  | 7, v => v 2 * v 0
  | 8, v => v 0 ^ 2 - v 1 ^ 2
  | _ + 9, _ => 0

/-- Claim C9: the `[1, 2, 0]` permutation sends a Cartesian vector
`(x, y, z)` to `(y, z, x)`, which is exactly the ordering of the L=1
coefficient block (flat indices `1^2 + m`), and the matrix conversion
permutes both axes the same way. -/
theorem claim_L1_permutation :
    (∀ x y z : ℚ, permVec ![x, y, z] = ![y, z, x]) ∧
    (∀ (v : V3) (i : Fin 3), shBasisPoly (shIndex 1 i.val) v = permVec v i) ∧
    (∀ (a b c d e f g h i : ℚ),
      permMat !![a, b, c; d, e, f; g, h, i] = !![e, f, d; h, i, g; b, c, a]) := by
  refine ⟨?_, ?_, ?_⟩
  · intro x y z
    funext i
    fin_cases i <;> rfl
  · intro v i
    fin_cases i <;> rfl
  · intro a b c d e f g h i
    funext j k
    fin_cases j <;> fin_cases k <;> rfl

/-- Claim C10: the degree-L coefficient block occupies flat indices
`[L^2, (L+1)^2)` of length `2L+1` (consecutive blocks tile the index
range), the flat index `L^2 + m` of `L = 2, m = 4` is `8`, which is the
last slot of the L=2 block, and the basis function there is
`x^2 - y^2`. -/
theorem claim_x2y2_index :
    shIndex 2 4 = 8 ∧
    blockStart 2 = 4 ∧
    blockStart 2 + blockLen 2 = 9 ∧
    (∀ L : ℕ, blockLen L = blockStart (L + 1) - blockStart L) ∧
    (∀ L : ℕ, blockStart (L + 1) = blockStart L + blockLen L) ∧
    (∀ v : V3, shBasisPoly (shIndex 2 4) v = v 0 ^ 2 - v 1 ^ 2) := by
  refine ⟨rfl, rfl, rfl, ?_, ?_, fun v => rfl⟩
  · intro L
    simp [blockLen, blockStart]
    ring_nf
    omega
  · intro L
    simp [blockLen, blockStart]
    ring

/-! ## The spherical-tensor builder

The builder itself (`SphericalTensor.from_geometry`, evaluation,
Wigner-D rotation) lives in the external `e3nn` library; the notebooks
only call it.  The definitions below model it from the spec.  They are
parameterized by the real-spherical-harmonic evaluator
`Y : degree → order-offset → direction → ℚ` and by the radius function
`radius`, both of which the spec treats as supplied capabilities. -/

/-- A spherical tensor: a degree bound and its coefficient vector. -/
structure SphericalTensor where
  lmax : ℕ
  signal : List ℚ
deriving DecidableEq

/-- Coefficient at flat index `i` (0 outside the vector). -/
def SphericalTensor.coeff (t : SphericalTensor) (i : ℕ) : ℚ := t.signal[i]?.getD 0

/-- Modelled from the spec: the unit direction of a point, its
coordinates divided by its radius. -/
def dirOf (radius : V3 → ℚ) (p : V3) : V3 := fun i => p i / radius p

/-- Modelled from the spec: the scalar weight of a point — 1 by
default, or the point's radius when the configuration asks for it. -/
def weightOf (wRadius : Bool) (radius : V3 → ℚ) (p : V3) : ℚ :=
  if wRadius then radius p else 1

/-- Modelled from the spec: the contribution of one point — its weight
times each basis value at its direction, laid out at index `L^2 + m`. -/
def projPoint (Y : ℕ → ℕ → V3 → ℚ) (radius : V3 → ℚ) (wRadius : Bool)
    (Lmax : ℕ) (p : V3) : List ℚ :=
  (layout Lmax).map fun Lm => weightOf wRadius radius p * Y Lm.1 Lm.2 (dirOf radius p)

/-- Elementwise sum of two coefficient vectors. -/
def addSignals (a b : List ℚ) : List ℚ := List.zipWith (fun x y => x + y) a b

/-- Modelled from the spec: `SphericalTensor.from_geometry` is external
library code; per the spec it accumulates, point by point, each point's
weight times the basis value into the coefficient at index `L^2 + m`,
starting from the zero vector of length `(Lmax+1)^2`. -/
def from_geometry (Y : ℕ → ℕ → V3 → ℚ) (radius : V3 → ℚ) (wRadius : Bool)
    (points : List V3) (Lmax : ℕ) : SphericalTensor :=
  ⟨Lmax, points.foldl (fun acc p => addSignals acc (projPoint Y radius wRadius Lmax p))
    ((layout Lmax).map fun _ => 0)⟩

/-- Modelled from the spec: evaluating the represented signal at a
direction by summing coefficient times basis value per `(L, m)`. -/
def evaluate (Y : ℕ → ℕ → V3 → ℚ) (t : SphericalTensor) (d : V3) : ℚ :=
  (((layout t.lmax).zip t.signal).map fun x => x.2 * Y x.1.1 x.1.2 d).sum

/-- Modelled from the spec: rotation applies the Wigner-D block
`D L : (2L+1) × (2L+1)` of each degree `L` present to that degree's
coefficient sub-block; the Wigner-D generator `D` is a supplied
capability. -/
def rotate (t : SphericalTensor) (D : ℕ → ℕ → ℕ → ℚ) : SphericalTensor :=
  ⟨t.lmax, (layout t.lmax).map fun Lm =>
    ((List.range (blockLen Lm.1)).map fun mp => D Lm.1 Lm.2 mp * t.coeff (shIndex Lm.1 mp)).sum⟩

/-! ### Sum and signal lemmas -/

theorem sum_map_add {α : Type} (l : List α) (f g : α → ℚ) :
    (l.map fun a => f a + g a).sum = (l.map f).sum + (l.map g).sum := by
  induction l with
  | nil => simp
  | cons a as ih => simp [ih]; ring

theorem sum_map_mul_left {α : Type} (l : List α) (c : ℚ) (f : α → ℚ) :
    (l.map fun a => c * f a).sum = c * (l.map f).sum := by
  induction l with
  | nil => simp
  | cons a as ih => simp [ih]; ring

theorem sum_map_swap {α β : Type} (l1 : List α) (l2 : List β) (f : α → β → ℚ) :
    (l1.map fun a => (l2.map fun b => f a b).sum).sum
      = (l2.map fun b => (l1.map fun a => f a b).sum).sum := by
  induction l1 with
  | nil => simp
  | cons a as ih =>
      simp only [List.map_cons, List.sum_cons, ih, sum_map_add]

theorem zip_self_map {α β : Type} (l : List α) (f : α → β) :
    l.zip (l.map f) = l.map fun a => (a, f a) := by
  induction l with
  | nil => rfl
  | cons a as ih => simp [ih]

theorem addSignals_map {α : Type} (l : List α) (f g : α → ℚ) :
    addSignals (l.map f) (l.map g) = l.map fun a => f a + g a := by
  simp [addSignals, List.zipWith_map]

theorem from_geometry_fold (Y : ℕ → ℕ → V3 → ℚ) (radius : V3 → ℚ) (wRadius : Bool)
    (points : List V3) (Lmax : ℕ) (g : ℕ × ℕ → ℚ) :
    points.foldl (fun acc p => addSignals acc (projPoint Y radius wRadius Lmax p))
      ((layout Lmax).map g)
    = (layout Lmax).map fun Lm =>
        g Lm + (points.map fun p =>
          weightOf wRadius radius p * Y Lm.1 Lm.2 (dirOf radius p)).sum := by
  induction points generalizing g with
  | nil => simp
  | cons p ps ih =>
      have hstep : addSignals ((layout Lmax).map g) (projPoint Y radius wRadius Lmax p)
          = (layout Lmax).map fun a =>
              g a + weightOf wRadius radius p * Y a.1 a.2 (dirOf radius p) := by
        simp only [projPoint, addSignals_map]
      rw [List.foldl_cons, hstep, ih]
      refine List.map_congr_left fun Lm _ => ?_
      simp [add_assoc]

theorem from_geometry_signal (Y : ℕ → ℕ → V3 → ℚ) (radius : V3 → ℚ) (wRadius : Bool)
    (points : List V3) (Lmax : ℕ) :
    (from_geometry Y radius wRadius points Lmax).signal
      = (layout Lmax).map fun Lm =>
          (points.map fun p =>
            weightOf wRadius radius p * Y Lm.1 Lm.2 (dirOf radius p)).sum := by
  have h := from_geometry_fold Y radius wRadius points Lmax fun _ => 0
  simp only [from_geometry]
  rw [h]
  exact List.map_congr_left fun Lm _ => by simp

theorem coeff_map (Lmax L m : ℕ) (f : ℕ × ℕ → ℚ) (hL : L ≤ Lmax) (hm : m < blockLen L) :
    SphericalTensor.coeff ⟨Lmax, (layout Lmax).map f⟩ (shIndex L m) = f (L, m) := by
  simp [SphericalTensor.coeff, List.getElem?_map, get_layout Lmax L m hL hm]

theorem evaluate_map (Y : ℕ → ℕ → V3 → ℚ) (Lmax : ℕ) (f : ℕ × ℕ → ℚ) (d : V3) :
    evaluate Y ⟨Lmax, (layout Lmax).map f⟩ d
      = ((layout Lmax).map fun Lm => f Lm * Y Lm.1 Lm.2 d).sum := by
  have hz : (layout Lmax).zip ((layout Lmax).map f)
      = (layout Lmax).map fun Lm => (Lm, f Lm) := zip_self_map _ f
  simp only [evaluate, hz, List.map_map]
  rfl

theorem from_geometry_coeff (Y : ℕ → ℕ → V3 → ℚ) (radius : V3 → ℚ) (wRadius : Bool)
    (points : List V3) (Lmax L m : ℕ) (hL : L ≤ Lmax) (hm : m < blockLen L) :
    (from_geometry Y radius wRadius points Lmax).coeff (shIndex L m)
      = (points.map fun p => weightOf wRadius radius p * Y L m (dirOf radius p)).sum := by
  simp only [SphericalTensor.coeff, from_geometry_signal]
  rw [List.getElem?_map, get_layout Lmax L m hL hm]
  rfl

/-- Claim C3: `from_geometry` returns a tensor of degree bound `Lmax`
with `(Lmax+1)^2` coefficients; the coefficient at flat index `L^2 + m`
accumulates, over the points, each point's scalar weight (1 by default,
or the radius per configuration) times the basis value at the point's
unit direction (coordinates over radius). -/
theorem claim_from_geometry (Y : ℕ → ℕ → V3 → ℚ) (radius : V3 → ℚ) (wRadius : Bool)
    (points : List V3) (Lmax L m : ℕ) (hL : L ≤ Lmax) (hm : m < blockLen L) :
    (from_geometry Y radius wRadius points Lmax).lmax = Lmax ∧
    (from_geometry Y radius wRadius points Lmax).signal.length = (Lmax + 1) ^ 2 ∧
    (from_geometry Y radius wRadius points Lmax).coeff (shIndex L m)
      = (points.map fun p => weightOf wRadius radius p * Y L m (dirOf radius p)).sum ∧
    (∀ p, weightOf false radius p = 1) ∧
    (∀ p, weightOf true radius p = radius p) ∧
    (∀ p i, dirOf radius p i = p i / radius p) := by
  refine ⟨rfl, ?_, from_geometry_coeff Y radius wRadius points Lmax L m hL hm,
    fun p => rfl, fun p => rfl, fun p i => rfl⟩
  rw [from_geometry_signal, List.length_map, length_layout]

/-- Concrete basis evaluator (constant 1) for witnesses. -/
def unitY : ℕ → ℕ → V3 → ℚ := fun _ _ _ => 1

/-- Concrete radius function (constant 1) for witnesses. -/
def unitRadius : V3 → ℚ := fun _ => 1

/-- The point `(1, 0, 0)` used by the spec's round-trip example. -/
def ptX : V3 := ![1, 0, 0]

/-- Witness for claim C3 at `Lmax = 1`, `L = 1`, `m = 2`, one point. -/
theorem claim_from_geometry_witness :
    (from_geometry unitY unitRadius false [ptX] 1).lmax = 1 ∧
    (from_geometry unitY unitRadius false [ptX] 1).signal.length = (1 + 1) ^ 2 ∧
    (from_geometry unitY unitRadius false [ptX] 1).coeff (shIndex 1 2)
      = ([ptX].map fun p => weightOf false unitRadius p * unitY 1 2 (dirOf unitRadius p)).sum ∧
    (∀ p, weightOf false unitRadius p = 1) ∧
    (∀ p, weightOf true unitRadius p = unitRadius p) ∧
    (∀ p i, dirOf unitRadius p i = p i / unitRadius p) :=
  claim_from_geometry unitY unitRadius false [ptX] 1 1 2 (by decide) (by decide)

/-- Claim C4 (amended): projecting one point at direction `d` with unit
weight onto degree 0 only yields the single coefficient `c0` (the L=0
normalization constant of the basis in use), and evaluating the
resulting signal at `d` yields `c0 * c0` — proportional to `c0` and
independent of `d`, but equal to `c0` itself only when `c0 ∈ {0, 1}`. -/
theorem L0_signal (c0 : ℚ) (Y : ℕ → ℕ → V3 → ℚ) (radius : V3 → ℚ) (d : V3)
    (hY : ∀ v, Y 0 0 v = c0) :
    (from_geometry Y radius false [d] 0).signal = [c0] := by
  have hlay : layout 0 = [(0, 0)] := rfl
  rw [from_geometry_signal, hlay]
  simp [weightOf, hY]

theorem L0_eval (c0 : ℚ) (Y : ℕ → ℕ → V3 → ℚ) (radius : V3 → ℚ) (d : V3)
    (hY : ∀ v, Y 0 0 v = c0) :
    evaluate Y (from_geometry Y radius false [d] 0) d = c0 * c0 := by
  have hlay : layout 0 = [(0, 0)] := rfl
  show (((layout 0).zip (from_geometry Y radius false [d] 0).signal).map
      fun x => x.2 * Y x.1.1 x.1.2 d).sum = c0 * c0
  rw [L0_signal c0 Y radius d hY, hlay]
  simp [hY]

theorem claim_L0_roundtrip (c0 : ℚ) (Y : ℕ → ℕ → V3 → ℚ) (radius : V3 → ℚ) (d : V3)
    (hY : ∀ v, Y 0 0 v = c0) :
    (from_geometry Y radius false [d] 0).signal = [c0] ∧
    evaluate Y (from_geometry Y radius false [d] 0) d = c0 * c0 :=
  ⟨L0_signal c0 Y radius d hY, L0_eval c0 Y radius d hY⟩

/-- Witness for claim C4 (amended) with `c0 = 3` at the point
`(1, 0, 0)`. -/
theorem claim_L0_roundtrip_witness :
    (from_geometry (fun _ _ _ => (3 : ℚ)) unitRadius false [ptX] 0).signal = [3] ∧
    evaluate (fun _ _ _ => (3 : ℚ)) (from_geometry (fun _ _ _ => (3 : ℚ)) unitRadius false [ptX] 0) ptX
      = 3 * 3 :=
  claim_L0_roundtrip 3 (fun _ _ _ => (3 : ℚ)) unitRadius ptX fun v => rfl

/-- Claim C4 counterexample: under a basis whose L=0 constant is 2, the
single coefficient of the one-point degree-0 projection is that
constant, but evaluating the resulting signal at the same direction
returns 4, the square of the constant — so the evaluation does not
equal the normalization constant as the claim states. -/
theorem claim_L0_eval_ne_const :
    evaluate (fun _ _ _ => (2 : ℚ))
        (from_geometry (fun _ _ _ => (2 : ℚ)) unitRadius false [ptX] 0) ptX = 4 ∧
    (4 : ℚ) ≠ 2 := by
  constructor
  · rw [L0_eval 2 (fun _ _ _ => (2 : ℚ)) unitRadius ptX fun v => rfl]
    norm_num
  · norm_num

/-! ## Rotation equivariance -/

theorem eval_of_signal_map (Y : ℕ → ℕ → V3 → ℚ) (Lmax : ℕ) (f : ℕ × ℕ → ℚ) (d : V3)
    (t : SphericalTensor) (hl : t.lmax = Lmax) (hs : t.signal = (layout Lmax).map f) :
    evaluate Y t d = ((layout Lmax).map fun Lm => f Lm * Y Lm.1 Lm.2 d).sum := by
  obtain ⟨tl, ts⟩ := t
  simp only at hl hs
  subst hl
  subst hs
  exact evaluate_map Y tl f d

theorem rotate_from_geometry_signal (Y : ℕ → ℕ → V3 → ℚ) (radius : V3 → ℚ)
    (wRadius : Bool) (D : ℕ → ℕ → ℕ → ℚ) (points : List V3) (Lmax : ℕ) :
    (rotate (from_geometry Y radius wRadius points Lmax) D).signal
      = (layout Lmax).map fun Lm =>
          ((List.range (blockLen Lm.1)).map fun mp =>
            D Lm.1 Lm.2 mp *
              (points.map fun p =>
                weightOf wRadius radius p * Y Lm.1 mp (dirOf radius p)).sum).sum := by
  show ((layout Lmax).map fun Lm =>
      ((List.range (blockLen Lm.1)).map fun mp =>
        D Lm.1 Lm.2 mp *
          (from_geometry Y radius wRadius points Lmax).coeff (shIndex Lm.1 mp)).sum) = _
  refine List.map_congr_left fun Lm hLm => ?_
  congr 1
  refine List.map_congr_left fun mp hmp => ?_
  rw [from_geometry_coeff Y radius wRadius points Lmax Lm.1 mp
    (mem_layout Lmax Lm hLm).1 (List.mem_range.mp hmp)]

theorem dir_mulVec (radius : V3 → ℚ) (R : Matrix (Fin 3) (Fin 3) ℚ)
    (hrad : ∀ p, radius (R.mulVec p) = radius p) (p : V3) :
    dirOf radius (R.mulVec p) = R.mulVec (dirOf radius p) := by
  funext i
  simp only [dirOf, Matrix.mulVec, Matrix.dotProduct, hrad]
  rw [Finset.sum_div]
  refine Finset.sum_congr rfl fun j _ => ?_
  rw [mul_div_assoc]

/-- Claim C1: for every point set, every radius-preserving linear map
`R`, every basis evaluator `Y`, and every Wigner-D generator `D`
satisfying the defining Wigner-D property `Y L m (R x) = Σ D L m m' *
Y L m' x` on the degrees present, evaluating the rotation of the
spherical tensor built from the points equals, at every direction,
evaluating the spherical tensor built from the rotated points. -/
theorem claim_rotation_equivariance (Y : ℕ → ℕ → V3 → ℚ) (D : ℕ → ℕ → ℕ → ℚ)
    (radius : V3 → ℚ) (wRadius : Bool) (R : Matrix (Fin 3) (Fin 3) ℚ)
    (points : List V3) (Lmax : ℕ)
    (hrad : ∀ p, radius (R.mulVec p) = radius p)
    (hD : ∀ L m, L ≤ Lmax → m < blockLen L → ∀ x : V3,
        Y L m (R.mulVec x)
          = ((List.range (blockLen L)).map fun mp => D L m mp * Y L mp x).sum)
    (d : V3) :
    evaluate Y (rotate (from_geometry Y radius wRadius points Lmax) D) d
      = evaluate Y (from_geometry Y radius wRadius (points.map R.mulVec) Lmax) d := by
  have hw : ∀ p, weightOf wRadius radius (R.mulVec p) = weightOf wRadius radius p := by
    intro p
    cases wRadius <;> simp [weightOf, hrad]
  rw [eval_of_signal_map Y Lmax _ d _ rfl
      (rotate_from_geometry_signal Y radius wRadius D points Lmax),
    eval_of_signal_map Y Lmax _ d _ rfl
      (from_geometry_signal Y radius wRadius (points.map R.mulVec) Lmax)]
  refine congrArg List.sum (List.map_congr_left fun Lm hLm => ?_)
  obtain ⟨hLle, hmlt⟩ := mem_layout Lmax Lm hLm
  congr 1
  calc
    ((List.range (blockLen Lm.1)).map fun mp =>
        D Lm.1 Lm.2 mp *
          (points.map fun p =>
            weightOf wRadius radius p * Y Lm.1 mp (dirOf radius p)).sum).sum
      = ((List.range (blockLen Lm.1)).map fun mp =>
          (points.map fun p =>
            D Lm.1 Lm.2 mp *
              (weightOf wRadius radius p * Y Lm.1 mp (dirOf radius p))).sum).sum := by
          refine congrArg List.sum (List.map_congr_left fun mp _ => ?_)
          rw [sum_map_mul_left]
    _ = (points.map fun p =>
          ((List.range (blockLen Lm.1)).map fun mp =>
            D Lm.1 Lm.2 mp *
              (weightOf wRadius radius p * Y Lm.1 mp (dirOf radius p))).sum).sum :=
          sum_map_swap _ _ _
    _ = (points.map fun p =>
          weightOf wRadius radius p *
            ((List.range (blockLen Lm.1)).map fun mp =>
              D Lm.1 Lm.2 mp * Y Lm.1 mp (dirOf radius p)).sum).sum := by
          refine congrArg List.sum (List.map_congr_left fun p _ => ?_)
          rw [← sum_map_mul_left]
          refine congrArg List.sum (List.map_congr_left fun mp _ => ?_)
          ring
    _ = ((points.map R.mulVec).map fun q =>
          weightOf wRadius radius q * Y Lm.1 Lm.2 (dirOf radius q)).sum := by
          rw [List.map_map]
          refine congrArg List.sum (List.map_congr_left fun p _ => ?_)
          show weightOf wRadius radius p *
              ((List.range (blockLen Lm.1)).map fun mp =>
                D Lm.1 Lm.2 mp * Y Lm.1 mp (dirOf radius p)).sum
            = weightOf wRadius radius (R.mulVec p) * Y Lm.1 Lm.2 (dirOf radius (R.mulVec p))
          rw [hw, dir_mulVec radius R hrad, hD Lm.1 Lm.2 hLle hmlt]

/-- Concrete basis for the equivariance witness: the constant at L=0
and the `(y, z, x)` coordinate functions at L=1. -/
def wY : ℕ → ℕ → V3 → ℚ
  | 0, 0, _ => 1
  | 1, 0, v => v 1
  | 1, 1, v => v 2
  | 1, 2, v => v 0
  | _, _, _ => 0

/-- Concrete Wigner-D generator for the equivariance witness: the
blocks of the 90° rotation about z in the `wY` basis. -/
def wD : ℕ → ℕ → ℕ → ℚ
  | 0, 0, 0 => 1
  | 1, 0, 2 => 1
  | 1, 1, 1 => 1
  | 1, 2, 0 => -1
  | _, _, _ => 0

/-- The 90° rotation about the z axis, `(x, y, z) ↦ (-y, x, z)`. -/
def rotZ : Matrix (Fin 3) (Fin 3) ℚ := !![0, -1, 0; 1, 0, 0; 0, 0, 1]

theorem wD_wigner (L m : ℕ) (hL : L ≤ 1) (hm : m < blockLen L) (x : V3) :
    wY L m (rotZ.mulVec x)
      = ((List.range (blockLen L)).map fun mp => wD L m mp * wY L mp x).sum := by
  simp only [blockLen] at hm
  interval_cases L <;> interval_cases m <;>
    simp [wY, wD, rotZ, Matrix.mulVec, Matrix.dotProduct, Fin.sum_univ_three,
      blockLen, List.range_succ]

/-- Witness for claim C1: the 90° z-rotation, two points, `Lmax = 1`. -/
theorem claim_rotation_equivariance_witness :
    evaluate wY
        (rotate (from_geometry wY unitRadius false [![1, 0, 0], ![0, 1, 0]] 1) wD) ![0, 0, 1]
      = evaluate wY
          (from_geometry wY unitRadius false
            ([![1, 0, 0], ![0, 1, 0]].map rotZ.mulVec) 1) ![0, 0, 1] :=
  claim_rotation_equivariance wY wD unitRadius false rotZ [![1, 0, 0], ![0, 1, 0]] 1
    (fun p => rfl) (fun L m hL hm x => wD_wigner L m hL hm x) ![0, 0, 1]

/-! ## Error handling -/

/-- The spec's error vocabulary: `InvalidInputError` and
`DimensionMismatchError`. -/
inductive TensorError where
  | invalidInput
  | dimensionMismatch
deriving DecidableEq

/-- A raw, unvalidated representation entry: integer multiplicity,
rational degree and integer parity, so that every malformed shape the
spec names (multiplicity below 1, negative degree, non-integer degree,
parity outside {-1, 0, 1}) is expressible. -/
structure RawRepEntry where
  mult : ℤ
  L : ℚ
  p : ℤ
deriving DecidableEq

/-- Whether a point lies at the origin (undefined direction). -/
def isOrigin (v : V3) : Bool := v 0 == 0 && v 1 == 0 && v 2 == 0

/-- Whether a raw entry satisfies the spec's invariants. -/
def entryOk (e : RawRepEntry) : Bool :=
  decide (1 ≤ e.mult) && decide (0 ≤ e.L) && (e.L.den == 1)
    && (e.p == -1 || e.p == 0 || e.p == 1)

/-- Modelled from the spec: scan the points, rejecting a point at the
origin unless the zero-weight configuration option is on. -/
def checkPoints (allowZero : Bool) : List V3 → Except TensorError Unit
  | [] => Except.ok ()
  | q :: qs =>
      if isOrigin q && !allowZero then Except.error TensorError.invalidInput
      else checkPoints allowZero qs

/-- Modelled from the spec: scan the representation entries, rejecting
the first one violating the invariants. -/
def checkEntries : List RawRepEntry → Except TensorError Unit
  | [] => Except.ok ()
  | e :: es =>
      if entryOk e then checkEntries es else Except.error TensorError.invalidInput

/-- Modelled from the spec: `from_geometry` validating its input and
surfacing `InvalidInputError` to the caller immediately, with no retry
or recovery; on well-formed input it builds the projection. -/
def from_geometry_checked (Y : ℕ → ℕ → V3 → ℚ) (radius : V3 → ℚ) (wRadius : Bool)
    (allowZero : Bool) (points : List V3) (Rs : List RawRepEntry) (Lmax : ℕ) :
    Except TensorError SphericalTensor :=
  match checkPoints allowZero points with
  | Except.error e => Except.error e
  | Except.ok _ =>
      match checkEntries Rs with
      | Except.error e => Except.error e
      | Except.ok _ => Except.ok (from_geometry Y radius wRadius points Lmax)

theorem checkPoints_cases (allowZero : Bool) (ps : List V3) :
    checkPoints allowZero ps = Except.ok ()
      ∨ checkPoints allowZero ps = Except.error TensorError.invalidInput := by
  induction ps with
  | nil => exact Or.inl rfl
  | cons q qs ih =>
      by_cases h : (isOrigin q && !allowZero) = true
      · exact Or.inr (by simp [checkPoints, h])
      · simpa [checkPoints, h] using ih

theorem checkPoints_error_iff (allowZero : Bool) (ps : List V3) :
    checkPoints allowZero ps = Except.error TensorError.invalidInput
      ↔ allowZero = false ∧ ∃ q ∈ ps, isOrigin q = true := by
  induction ps with
  | nil => simp [checkPoints]
  | cons q qs ih =>
      simp only [checkPoints]
      by_cases h : (isOrigin q && !allowZero) = true
      · rw [if_pos h]
        simp only [Bool.and_eq_true, Bool.not_eq_true'] at h
        simp [h.1, h.2]
      · rw [if_neg h, ih]
        simp only [Bool.and_eq_true, Bool.not_eq_true'] at h
        constructor
        · rintro ⟨haz, x, hx, hox⟩
          exact ⟨haz, x, List.mem_cons_of_mem q hx, hox⟩
        · rintro ⟨haz, x, hx, hox⟩
          rcases List.mem_cons.mp hx with rfl | hx
          · exact absurd (And.intro hox haz) h
          · exact ⟨haz, x, hx, hox⟩

theorem checkEntries_cases (es : List RawRepEntry) :
    checkEntries es = Except.ok ()
      ∨ checkEntries es = Except.error TensorError.invalidInput := by
  induction es with
  | nil => exact Or.inl rfl
  | cons e es ih =>
      by_cases h : entryOk e = true
      · simpa [checkEntries, h] using ih
      · exact Or.inr (by simp [checkEntries, h])

theorem checkEntries_error_iff (es : List RawRepEntry) :
    checkEntries es = Except.error TensorError.invalidInput
      ↔ ∃ e ∈ es, entryOk e = false := by
  induction es with
  | nil => simp [checkEntries]
  | cons e es ih =>
      by_cases h : entryOk e = true
      · simp [checkEntries, h, ih]
      · simp [checkEntries, h]

theorem entryOk_true_iff (e : RawRepEntry) :
    entryOk e = true
      ↔ 1 ≤ e.mult ∧ 0 ≤ e.L ∧ e.L.den = 1 ∧ (e.p = -1 ∨ e.p = 0 ∨ e.p = 1) := by
  simp [entryOk, and_assoc, or_assoc]

theorem entryOk_false_iff (e : RawRepEntry) :
    entryOk e = false
      ↔ e.mult < 1 ∨ e.L < 0 ∨ e.L.den ≠ 1 ∨ (e.p ≠ -1 ∧ e.p ≠ 0 ∧ e.p ≠ 1) := by
  rw [← Bool.not_eq_true, entryOk_true_iff]
  simp only [← not_le]
  tauto

/-- Claim C5: the checked `from_geometry` raises `InvalidInputError`
exactly when the input is malformed — a point at the origin without the
zero-weight option, a multiplicity below 1, a negative or non-integer
degree, or a parity outside {-1, 0, 1} — and otherwise returns the
projection; the error is surfaced directly, with no retry state. -/
theorem claim_invalid_input (Y : ℕ → ℕ → V3 → ℚ) (radius : V3 → ℚ) (wRadius : Bool)
    (allowZero : Bool) (points : List V3) (Rs : List RawRepEntry) (Lmax : ℕ) :
    (from_geometry_checked Y radius wRadius allowZero points Rs Lmax
        = Except.error TensorError.invalidInput
      ↔ ((allowZero = false ∧ ∃ q ∈ points, isOrigin q = true)
          ∨ ∃ e ∈ Rs, (e.mult < 1 ∨ e.L < 0 ∨ e.L.den ≠ 1
            ∨ (e.p ≠ -1 ∧ e.p ≠ 0 ∧ e.p ≠ 1)))) ∧
    (from_geometry_checked Y radius wRadius allowZero points Rs Lmax
        = Except.ok (from_geometry Y radius wRadius points Lmax)
      ↔ ¬ ((allowZero = false ∧ ∃ q ∈ points, isOrigin q = true)
          ∨ ∃ e ∈ Rs, (e.mult < 1 ∨ e.L < 0 ∨ e.L.den ≠ 1
            ∨ (e.p ≠ -1 ∧ e.p ≠ 0 ∧ e.p ≠ 1)))) := by
  have hE : (∃ e ∈ Rs, entryOk e = false)
      ↔ ∃ e ∈ Rs, (e.mult < 1 ∨ e.L < 0 ∨ e.L.den ≠ 1
          ∨ (e.p ≠ -1 ∧ e.p ≠ 0 ∧ e.p ≠ 1)) := by
    refine exists_congr fun e => ?_
    rw [entryOk_false_iff]
  rw [← hE, ← checkPoints_error_iff allowZero points, ← checkEntries_error_iff Rs]
  unfold from_geometry_checked
  rcases checkPoints_cases allowZero points with hp | hp <;> rw [hp] <;>
    rcases checkEntries_cases Rs with he | he <;> rw [he] <;>
      simp [hp, he]

/-- Witness for claim C5: one non-origin point and an empty entry list
pass validation and return the projection. -/
theorem claim_invalid_input_witness :
    from_geometry_checked unitY unitRadius false false [ptX] [] 0
      = Except.ok (from_geometry unitY unitRadius false [ptX] 0) :=
  (claim_invalid_input unitY unitRadius false false [ptX] [] 0).2.mpr
    (by simp [isOrigin, ptX])

/-! ## Dimension mismatch on direct construction -/

/-- An irrep tensor built directly: its representation list and its
coefficient vector. -/
structure IrrepTensor where
  rs : List RepEntry
  signal : List ℚ
deriving DecidableEq

/-- Modelled from the spec: direct construction of a tensor from a
coefficient vector and a representation list, raising
`DimensionMismatchError` when the vector's length differs from the
dimension the list implies. -/
def mkIrrepTensor (coeffs : List ℚ) (Rs : List RepEntry) : Except TensorError IrrepTensor :=
  if coeffs.length = rsDim Rs then Except.ok ⟨Rs, coeffs⟩
  else Except.error TensorError.dimensionMismatch

/-- Claim C6: direct construction fails with `DimensionMismatchError`
exactly when the coefficient vector's length differs from the dimension
implied by the representation list (the sum of `mult * (2L+1)`), and
succeeds, keeping the inputs, otherwise. -/
theorem claim_dimension_mismatch (coeffs : List ℚ) (Rs : List RepEntry) :
    (mkIrrepTensor coeffs Rs = Except.error TensorError.dimensionMismatch
      ↔ coeffs.length ≠ (Rs.map fun e => e.mult * (2 * e.L + 1)).sum) ∧
    (mkIrrepTensor coeffs Rs = Except.ok ⟨Rs, coeffs⟩
      ↔ coeffs.length = (Rs.map fun e => e.mult * (2 * e.L + 1)).sum) := by
  rw [← rsDim_eq_sum]
  unfold mkIrrepTensor
  by_cases h : coeffs.length = rsDim Rs <;> simp [h]

/-- Witness for claim C6: a 3-vector of coefficients against
`Rs = [(1, 1, 0)]`, whose implied dimension is 3. -/
theorem claim_dimension_mismatch_witness :
    mkIrrepTensor [0, 0, 0] [⟨1, 1, 0⟩]
      = Except.ok ⟨[⟨1, 1, 0⟩], [0, 0, 0]⟩ :=
  (claim_dimension_mismatch [0, 0, 0] [⟨1, 1, 0⟩]).2.mpr (by decide)

/-! ## Symmetry breaking under the square's 90° rotation -/

/-- cos(m · 90°) as a rational. -/
def cos90 (m : ℤ) : ℚ := if m % 4 = 0 then 1 else if m % 4 = 2 then -1 else 0

/-- sin(m · 90°) as a rational. -/
def sin90 (m : ℤ) : ℚ := if m % 4 = 1 then 1 else if m % 4 = 3 then -1 else 0

/-- The degree of a flat coefficient index: the `L` with
`L^2 ≤ i < (L+1)^2`; it steps up exactly at the perfect squares. -/
def degOf : ℕ → ℕ
  | 0 => 0
  | n + 1 => if n + 1 = (degOf n + 1) ^ 2 then degOf n + 1 else degOf n

/-- The signed order of a flat index: `m_real = i - L^2 - L ∈ [-L, L]`. -/
def ordOf (i : ℕ) : ℤ := (i : ℤ) - (degOf i : ℤ) ^ 2 - degOf i

/-- The flat index carrying the opposite signed order of the same
degree block. -/
def mirrorIdx (i : ℕ) : ℕ := degOf i ^ 2 + (2 * degOf i - (i - degOf i ^ 2))

/-- Modelled from the spec: the Wigner-D action on real-spherical-
harmonic coefficients of the 90° rotation about z — within each degree
block the pair of opposite signed orders `±m` mixes through
cos(m · 90°) and sin(m · 90°); in particular the coefficient at flat
index 8 (the x^2 - y^2 slot, signed order +2) picks up
cos(180°) = -1. -/
def rotZ90 (c : ℕ → ℚ) : ℕ → ℚ := fun i =>
  cos90 (ordOf i) * c i + sin90 (ordOf i) * c (mirrorIdx i)

theorem degOf_pos (i : ℕ) (h : i ≠ 0) : 1 ≤ degOf i := by
  induction i with
  | zero => exact absurd rfl h
  | succ n ih =>
      by_cases hn : n = 0
      · subst hn
        decide
      · show 1 ≤ if n + 1 = (degOf n + 1) ^ 2 then degOf n + 1 else degOf n
        have := ih hn
        split <;> omega

theorem mirrorIdx_ne_zero (i : ℕ) (h : i ≠ 0) : mirrorIdx i ≠ 0 := by
  have h1 := degOf_pos i h
  have h2 : 1 ≤ degOf i ^ 2 := Nat.one_le_pow 2 (degOf i) h1
  simp only [mirrorIdx]
  omega

/-- Claim C7: a signal with support only at the scalar slot (index 0)
cannot, under any network commuting with the 90°-rotation Wigner-D
action, acquire a nonzero coefficient at the symmetry-breaking
x^2 - y^2 slot (index 8); and the coefficient may be nonzero once the
input itself carries that component (witnessed by the identity
network). -/
theorem claim_scalar_no_symmetry_breaking :
    (∀ f : (ℕ → ℚ) → ℕ → ℚ, ∀ x : ℕ → ℚ,
        (∀ v, f (rotZ90 v) = rotZ90 (f v)) → (∀ i, i ≠ 0 → x i = 0) → f x 8 = 0) ∧
    (∃ f : (ℕ → ℚ) → ℕ → ℚ, ∃ x : ℕ → ℚ,
        (∀ v, f (rotZ90 v) = rotZ90 (f v)) ∧ x 8 = 1 ∧ f x 8 ≠ 0) := by
  constructor
  · intro f x hf hx
    have hfix : rotZ90 x = x := by
      funext i
      by_cases hi : i = 0
      · subst hi
        show cos90 (ordOf 0) * x 0 + sin90 (ordOf 0) * x (mirrorIdx 0) = x 0
        have hc : cos90 (ordOf 0) = 1 := by decide
        have hs : sin90 (ordOf 0) = 0 := by decide
        rw [hc, hs]
        ring
      · have h1 : x i = 0 := hx i hi
        have h2 : x (mirrorIdx i) = 0 := hx (mirrorIdx i) (mirrorIdx_ne_zero i hi)
        show cos90 (ordOf i) * x i + sin90 (ordOf i) * x (mirrorIdx i) = x i
        rw [h1, h2]
        ring
    have heq : rotZ90 (f x) 8 = f x 8 := by rw [← hf x, hfix]
    have h8 : rotZ90 (f x) 8 = -1 * f x 8 + 0 * f x 4 := by
      show cos90 (ordOf 8) * f x 8 + sin90 (ordOf 8) * f x (mirrorIdx 8)
        = -1 * f x 8 + 0 * f x 4
      have hc : cos90 (ordOf 8) = -1 := by decide
      have hs : sin90 (ordOf 8) = 0 := by decide
      have hmir : mirrorIdx 8 = 4 := by decide
      rw [hc, hs, hmir]
    rw [h8] at heq
    linarith
  · refine ⟨fun c => c, fun i => if i = 0 then 1 else if i = 8 then 1 else 0,
      fun v => rfl, by norm_num, by norm_num⟩

/-- Witness for claim C7's universal half: the identity network and a
pure scalar input. -/
theorem claim_scalar_no_symmetry_breaking_witness :
    (fun c : ℕ → ℚ => c) (fun i => if i = 0 then (5 : ℚ) else 0) 8 = 0 :=
  claim_scalar_no_symmetry_breaking.1 (fun c => c)
    (fun i => if i = 0 then (5 : ℚ) else 0) (fun v => rfl)
    (fun i hi => by simp [hi])

end E3nnTutorial
